import Mathlib

/-!
Verification of the mwclient-cli request-marshalling and result-normalization
pipeline (src/mwclient-cli/cli.py) against its natural-language specification.

The Python values flowing through the pipeline are embedded as the inductive
type `PyVal` below (mutual with `PyList` for Python lists/tuples/sets and
`PyEntries` for Python dict entries).  Machine-level details that no claim
touches are simplified and noted where they occur: floating-point JSON numbers
are carried as their literal text, and opaque Python objects are carried as
their `repr` string.  External collaborators (the mwclient library, html2text,
the network) are parameters of the model; everything else is translated from
the source.
-/

mutual
/-- Python `None` is `pnone`; `bool`/`int`/`str` carry their value; `float`
carries its JSON literal text (no claim computes with floats); `bytes` carries
the byte values; `map` is a Python mapping as an ordered entry list; `list`,
`tuple` and `set` carry their elements in iteration order; `other` is an
object of no recognized shape, carried as its `repr` string. -/
inductive PyVal : Type where
  | pnone : PyVal
  | bool : Bool → PyVal
  | int : Int → PyVal
  | float : String → PyVal
  | str : String → PyVal
  | bytes : List Nat → PyVal
  | map : PyEntries → PyVal
  | list : PyList → PyVal
  | tuple : PyList → PyVal
  | set : PyList → PyVal
  | other : String → PyVal
  deriving DecidableEq
inductive PyList : Type where
  | nil : PyList
  | cons : PyVal → PyList → PyList
  deriving DecidableEq
inductive PyEntries : Type where
  | nil : PyEntries
  | cons : PyVal → PyVal → PyEntries → PyEntries
  deriving DecidableEq
end

def pyListToList : PyList → List PyVal
  | .nil => []
  | .cons x xs => x :: pyListToList xs

def listToPyList : List PyVal → PyList
  | [] => .nil
  | x :: xs => .cons x (listToPyList xs)

def pyEntriesToList : PyEntries → List (PyVal × PyVal)
  | .nil => []
  | .cons k v rest => (k, v) :: pyEntriesToList rest

/-- The keys of a Python mapping, in order. -/
def entriesKeys : PyEntries → List PyVal
  | .nil => []
  | .cons k _ rest => k :: entriesKeys rest

def entriesAppend : PyEntries → PyEntries → PyEntries
  | .nil, es => es
  | .cons k v rest, es => .cons k v (entriesAppend rest es)

/-- Insertion into a Python dict whose keys are all strings: a present key
keeps its position and gets the new value, an absent key is appended.  This is
CPython dict-comprehension / item-assignment semantics. -/
def dictInsertStr (k : String) (v : PyVal) : PyEntries → PyEntries
  | .nil => .cons (.str k) v .nil
  | .cons k2 v2 rest =>
    match k2 with
    | .str s2 => if s2 = k then .cons k2 v rest else .cons k2 v2 (dictInsertStr k v rest)
    | _ => .cons k2 v2 (dictInsertStr k v rest)

/-- `d.get(k)` on a Python mapping for a string key `k`: a non-string key of
`d` never equals a string under Python equality for the shapes modelled. -/
def entriesGetStr (k : String) : PyEntries → Option PyVal
  | .nil => Option.none
  | .cons k2 v rest =>
    match k2 with
    | .str s2 => if s2 = k then some v else entriesGetStr k rest
    | _ => entriesGetStr k rest

/-- Insertion into a Python dict with arbitrary (here: string) keys, used for
the keyword-argument mapping: present key keeps position, value replaced. -/
def dictInsert (k : String) (v : PyVal) : List (String × PyVal) → List (String × PyVal)
  | [] => [(k, v)]
  | (k2, v2) :: rest => if k2 = k then (k2, v) :: rest else (k2, v2) :: dictInsert k v rest

def lookupPairs (k : String) : List (String × PyVal) → Option PyVal
  | [] => Option.none
  | (k2, v) :: rest => if k2 = k then some v else lookupPairs k rest

/-- The whitespace removed by Python `str.strip()` (ASCII fragment). -/
def pyIsSpace (c : Char) : Bool :=
  c = ' ' || c = '\t' || c = '\n' || c = '\r' || c = '\x0b' || c = '\x0c'

/-- Python `str.strip()`. -/
def pyStrip (s : String) : String :=
  String.mk (((s.data.dropWhile pyIsSpace).reverse.dropWhile pyIsSpace).reverse)

/-- Python `value.replace("_", " ")` for the single-character pattern used
by the source. -/
def underscoreToSpace (s : String) : String :=
  String.mk (s.data.map (fun c => if c = '_' then ' ' else c))

/-- Python `value.rstrip("\n")`. -/
def rstripNewlines (s : String) : String :=
  String.mk ((s.data.reverse.dropWhile (fun c => c = '\n')).reverse)

/-- Python `item.split("=", 1)`: `some (before, after)` at the first `=`,
`none` when the separator does not occur (`"=" not in item`). -/
def splitOnceEq (s : String) : Option (String × String) :=
  match s.data.findIdx? (fun c => c = '=') with
  | some i => some (String.mk (s.data.take i), String.mk (s.data.drop (i + 1)))
  | Option.none => Option.none

/-- Truthiness of an optional string (`bool(x)` for `x: str | None`). -/
def optTruthy : Option String → Bool
  | some s => !(s = "")
  | Option.none => false

def lbraceChar : Char := Char.ofNat 123

def rbraceChar : Char := Char.ofNat 125

/-! ## A model of `json.loads` (the external decoder `parse_cli_value` calls)

Recursive-descent decoder for the JSON grammar that CPython `json.loads`
accepts by default, over the character list of the input, with a fuel
argument (one plus the input length always suffices: every recursive call
follows the consumption of at least one character).  Numbers with a
fraction or exponent become `PyVal.float` carrying the literal; a `\u`
escape becomes the scalar value directly (surrogate pairs simplified). -/

def jsonWsChar (c : Char) : Bool := c = ' ' || c = '\t' || c = '\n' || c = '\r'

def skipWs : List Char → List Char
  | [] => []
  | c :: cs => if jsonWsChar c then skipWs cs else c :: cs

def digitsToNat (ds : List Char) : Nat :=
  ds.foldl (fun a c => a * 10 + (c.toNat - 48)) 0

def hexDigitVal (c : Char) : Option Nat :=
  if c.isDigit then some (c.toNat - 48)
  else if 'a' ≤ c && c ≤ 'f' then some (c.toNat - 87)
  else if 'A' ≤ c && c ≤ 'F' then some (c.toNat - 55)
  else Option.none

/-- JSON string body after the opening quote; `acc` holds decoded characters
in reverse. -/
def parseJStringAux : Nat → List Char → List Char → Option (String × List Char)
  | 0, _, _ => Option.none
  | fuel + 1, acc, cs =>
    match cs with
    | [] => Option.none
    | c :: rest =>
      if c = '"' then some (String.mk acc.reverse, rest)
      else if c = '\\' then
        match rest with
        | [] => Option.none
        | e :: rest2 =>
          if e = '"' then parseJStringAux fuel ('"' :: acc) rest2
          else if e = '\\' then parseJStringAux fuel ('\\' :: acc) rest2
          else if e = '/' then parseJStringAux fuel ('/' :: acc) rest2
          else if e = 'b' then parseJStringAux fuel ('\x08' :: acc) rest2
          else if e = 'f' then parseJStringAux fuel ('\x0c' :: acc) rest2
          else if e = 'n' then parseJStringAux fuel ('\n' :: acc) rest2
          else if e = 'r' then parseJStringAux fuel ('\r' :: acc) rest2
          else if e = 't' then parseJStringAux fuel ('\t' :: acc) rest2
          else if e = 'u' then
            match rest2 with
            | h1 :: h2 :: h3 :: h4 :: rest3 =>
              match hexDigitVal h1, hexDigitVal h2, hexDigitVal h3, hexDigitVal h4 with
              | some a, some b, some c2, some d =>
                parseJStringAux fuel (Char.ofNat (a * 4096 + b * 256 + c2 * 16 + d) :: acc) rest3
              | _, _, _, _ => Option.none
            | _ => Option.none
          else Option.none
      else if c.toNat < 32 then Option.none
      else parseJStringAux fuel (c :: acc) rest

/-- The JSON integer part: `0`, or a nonzero digit followed by a digit run
(so `01` decodes as `0` with `1` left over, exactly where CPython then
reports extra data). -/
def parseIntDigits : List Char → Option (List Char × List Char)
  | [] => Option.none
  | c :: rest =>
    if c = '0' then some ([c], rest)
    else if c.isDigit then some (c :: rest.takeWhile Char.isDigit, rest.dropWhile Char.isDigit)
    else Option.none

def parseJNumber (cs : List Char) : Option (PyVal × List Char) :=
  let sign := match cs with
    | '-' :: rest => ((['-'] : List Char), rest)
    | _ => (([] : List Char), cs)
  match parseIntDigits sign.2 with
  | Option.none => Option.none
  | some (intDigits, cs2) =>
    let frac := match cs2 with
      | '.' :: ds =>
        let run := ds.takeWhile Char.isDigit
        if run = [] then (([] : List Char), cs2) else ('.' :: run, ds.dropWhile Char.isDigit)
      | _ => (([] : List Char), cs2)
    let expo := match frac.2 with
      | e :: more =>
        if e = 'e' || e = 'E' then
          match more with
          | s :: more2 =>
            if s = '+' || s = '-' then
              let run := more2.takeWhile Char.isDigit
              if run = [] then (([] : List Char), frac.2)
              else (e :: s :: run, more2.dropWhile Char.isDigit)
            else
              let run := more.takeWhile Char.isDigit
              if run = [] then (([] : List Char), frac.2)
              else (e :: run, more.dropWhile Char.isDigit)
          | [] => (([] : List Char), frac.2)
        else (([] : List Char), frac.2)
      | [] => (([] : List Char), frac.2)
    if frac.1 = [] ∧ expo.1 = [] then
      let n : Int := Int.ofNat (digitsToNat intDigits)
      some (.int (if sign.1 = [] then n else -n), cs2)
    else
      some (.float (String.mk (sign.1 ++ intDigits ++ frac.1 ++ expo.1)), expo.2)

/-- A decoded JSON object is built by inserting its pairs in order into a
dict, so a repeated key keeps its first position and last value, as in
CPython. -/
def buildJObject (entries : List (String × PyVal)) : PyEntries :=
  entries.foldl (fun acc kv => dictInsertStr kv.1 kv.2 acc) PyEntries.nil

mutual
def parseJValue : Nat → List Char → Option (PyVal × List Char)
  | 0, _ => Option.none
  | fuel + 1, cs =>
    let s := skipWs cs
    if List.isPrefixOf ("null".data) s then some (.pnone, s.drop 4)
    else if List.isPrefixOf ("true".data) s then some (.bool true, s.drop 4)
    else if List.isPrefixOf ("false".data) s then some (.bool false, s.drop 5)
    else
      match s with
      | [] => Option.none
      | c :: rest =>
        if c = '"' then
          match parseJStringAux (rest.length + 1) [] rest with
          | some (decoded, rest2) => some (.str decoded, rest2)
          | Option.none => Option.none
        else if c = '[' then
          match skipWs rest with
          | ']' :: rest2 => some (.list .nil, rest2)
          | cs2 =>
            match parseJArrayItems fuel cs2 with
            | some (items, rest2) => some (.list items, rest2)
            | Option.none => Option.none
        else if c = lbraceChar then
          match skipWs rest with
          | c2 :: rest2 =>
            if c2 = rbraceChar then some (.map .nil, rest2)
            else
              match parseJObjectItems fuel (c2 :: rest2) with
              | some (entries, rest3) => some (.map (buildJObject entries), rest3)
              | Option.none => Option.none
          | [] => Option.none
        else parseJNumber s
def parseJArrayItems : Nat → List Char → Option (PyList × List Char)
  | 0, _ => Option.none
  | fuel + 1, cs =>
    match parseJValue fuel cs with
    | Option.none => Option.none
    | some (v, rest) =>
      match skipWs rest with
      | c :: rest2 =>
        if c = ',' then
          match parseJArrayItems fuel rest2 with
          | some (items, rest3) => some (.cons v items, rest3)
          | Option.none => Option.none
        else if c = ']' then some (.cons v .nil, rest2)
        else Option.none
      | [] => Option.none
def parseJObjectItems : Nat → List Char → Option (List (String × PyVal) × List Char)
  | 0, _ => Option.none
  | fuel + 1, cs =>
    match skipWs cs with
    | c :: rest =>
      if c = '"' then
        match parseJStringAux (rest.length + 1) [] rest with
        | some (key, rest2) =>
          match skipWs rest2 with
          | c2 :: rest3 =>
            if c2 = ':' then
              match parseJValue fuel rest3 with
              | some (v, rest4) =>
                match skipWs rest4 with
                | c3 :: rest5 =>
                  if c3 = ',' then
                    match parseJObjectItems fuel rest5 with
                    | some (entries, rest6) => some ((key, v) :: entries, rest6)
                    | Option.none => Option.none
                  else if c3 = rbraceChar then some ([(key, v)], rest5)
                  else Option.none
                | [] => Option.none
              | Option.none => Option.none
            else Option.none
          | [] => Option.none
        | Option.none => Option.none
      else Option.none
    | [] => Option.none
end

/-- `json.loads`: decode one JSON document, allowing surrounding whitespace,
rejecting leftovers.  `Option.none` stands for `json.JSONDecodeError`. -/
def jsonLoads (s : String) : Option PyVal :=
  match parseJValue (s.data.length + 1) s.data with
  | some (v, rest) => if skipWs rest = [] then some v else Option.none
  | Option.none => Option.none

/-! ## cli.py: value coercion and keyword-argument building -/

/-- `parse_cli_value` (cli.py lines 44-48): JSON decode with verbatim string
fallback; the `except` arm makes it total. -/
def parse_cli_value (raw : String) : PyVal :=
  match jsonLoads raw with
  | some v => v
  | Option.none => .str raw

/-- The two `ValueError` messages `parse_keyword_args` raises, as a
structured error (`run` reports them through `parser.error`). -/
inductive KwError : Type where
  | invalidToken : String → KwError
  | emptyKey : KwError
  deriving DecidableEq

/-- The loop body of `parse_keyword_args` over the remaining items, with the
dict built so far. -/
def parseKwGo (acc : List (String × PyVal)) : List String → Except KwError (List (String × PyVal))
  | [] => .ok acc
  | item :: rest =>
    match splitOnceEq item with
    | Option.none => .error (.invalidToken item)
    | some kv =>
      if kv.1 = "" then .error .emptyKey
      else parseKwGo (dictInsert kv.1 (parse_cli_value kv.2) acc) rest

/-- `parse_keyword_args` (cli.py lines 51-60). -/
def parse_keyword_args (items : List String) : Except KwError (List (String × PyVal)) :=
  parseKwGo [] items

/-- A token the builder accepts: it has a separator and a nonempty key. -/
def kwTokenOk (item : String) : Bool :=
  match splitOnceEq item with
  | some kv => !(kv.1 = "")
  | Option.none => false

def exceptOk {e a : Type} : Except e a → Bool
  | .ok _ => true
  | .error _ => false

/-! ## Python `str`/`repr` for dict keys and base64 for bytes

`normalize_result` applies `str(key)` to mapping keys and `base64.b64encode`
to bytes.  `str()` equals `repr()` for every non-string standard type; the
`repr` of containers is reproduced in CPython format, and escaping inside
`repr` of strings and bytes is simplified (no claim depends on it). -/

def pyListIsNil : PyList → Bool
  | .nil => true
  | _ => false

def pyListIsSingleton : PyList → Bool
  | .cons _ .nil => true
  | _ => false

mutual
def pyRepr : PyVal → String
  | .pnone => "None"
  | .bool b => if b then "True" else "False"
  | .int n => toString n
  | .float lit => lit
  | .str s => "\x27" ++ s ++ "\x27"
  | .bytes bs => "b\x27" ++ String.mk (bs.map (fun b => Char.ofNat b)) ++ "\x27"
  | .map es => "\x7b" ++ pyReprEntries es ++ "\x7d"
  | .list xs => "[" ++ pyReprItems xs ++ "]"
  | .tuple xs => "(" ++ pyReprItems xs ++ (if pyListIsSingleton xs then ",)" else ")")
  | .set xs => if pyListIsNil xs then "set()" else "\x7b" ++ pyReprItems xs ++ "\x7d"
  | .other r => r
def pyReprItems : PyList → String
  | .nil => ""
  | .cons x .nil => pyRepr x
  | .cons x xs => pyRepr x ++ ", " ++ pyReprItems xs
def pyReprEntries : PyEntries → String
  | .nil => ""
  | .cons k v .nil => pyRepr k ++ ": " ++ pyRepr v
  | .cons k v rest => pyRepr k ++ ": " ++ pyRepr v ++ ", " ++ pyReprEntries rest
end

/-- Python `str(v)`: the string itself for strings, `repr` otherwise. -/
def pyStr (v : PyVal) : String :=
  match v with
  | .str s => s
  | _ => pyRepr v

def b64Char (n : Nat) : Char :=
  ("ABCDEFGHIJKLMNOPQRSTUVWXYZabcdefghijklmnopqrstuvwxyz0123456789+/".data).getD n 'A'

def base64Chunks : List Nat → List Char
  | [] => []
  | [b1] => [b64Char (b1 / 4), b64Char (b1 % 4 * 16), '=', '=']
  | [b1, b2] => [b64Char (b1 / 4), b64Char (b1 % 4 * 16 + b2 / 16), b64Char (b2 % 16 * 4), '=']
  | b1 :: b2 :: b3 :: rest =>
    b64Char (b1 / 4) :: b64Char (b1 % 4 * 16 + b2 / 16) ::
      b64Char (b2 % 16 * 4 + b3 / 64) :: b64Char (b3 % 64) :: base64Chunks rest

/-- `base64.b64encode(value).decode("ascii")`. -/
def base64Encode (bs : List Nat) : String := String.mk (base64Chunks bs)

/-! ## cli.py: result normalization -/

mutual
/-- `normalize_result` (cli.py lines 63-78). -/
def normalize_result : PyVal → PyVal
  | .pnone => .pnone
  | .bool b => .bool b
  | .int n => .int n
  | .float f => .float f
  | .str s => .str s
  | .bytes bs =>
    .map (.cons (.str "__type__") (.str "bytes")
      (.cons (.str "base64") (.str (base64Encode bs))
        (.cons (.str "size") (.int bs.length) .nil)))
  | .map es => .map (normEntries es .nil)
  | .list xs => .list (normList xs)
  | .tuple xs => .list (normList xs)
  | .set xs => .list (normList xs)
  | .other r => .str r
/-- Elementwise normalization of a sequence, in order. -/
def normList : PyList → PyList
  | .nil => .nil
  | .cons x xs => .cons (normalize_result x) (normList xs)
/-- The dict comprehension `{str(key): normalize_result(item) for key, item
in value.items()}`: left-to-right insertion into a fresh dict. -/
def normEntries : PyEntries → PyEntries → PyEntries
  | .nil, acc => acc
  | .cons k v rest, acc => normEntries rest (dictInsertStr (pyStr k) (normalize_result v) acc)
end

mutual
/-- The NormalizedValue shape invariant of the spec: only null, booleans,
numbers, strings, string-keyed mappings of normalized values and sequences
of normalized values. -/
def isNormalized : PyVal → Bool
  | .pnone => true
  | .bool _ => true
  | .int _ => true
  | .float _ => true
  | .str _ => true
  | .bytes _ => false
  | .map es => entriesNormalized es
  | .list xs => listNormalized xs
  | .tuple _ => false
  | .set _ => false
  | .other _ => false
def listNormalized : PyList → Bool
  | .nil => true
  | .cons x xs => isNormalized x && listNormalized xs
def entriesNormalized : PyEntries → Bool
  | .nil => true
  | .cons k v rest =>
    (match k with | .str _ => true | _ => false) && isNormalized v && entriesNormalized rest
end

/-- The elements of a normalized sequence, for stating order preservation. -/
def listElems : PyVal → Option (List PyVal)
  | .list xs => some (pyListToList xs)
  | _ => Option.none

def hasStrKey (k : String) : PyEntries → Bool
  | .nil => false
  | .cons k2 _ rest => (match k2 with | .str s2 => s2 = k | _ => false) || hasStrKey k rest

/-! ## cli.py: markdown post-processing -/

/-- `normalize_page_title` (cli.py lines 133-134). -/
def normalize_page_title (value : String) : String :=
  pyStrip (underscoreToSpace value)

/-- `extract_parse_html` (cli.py lines 137-144): the nested HTML fragment at
`parse_result["text"]["*"]` when each level has the expected shape. -/
def extract_parse_html (parse_result : PyVal) : Option String :=
  match parse_result with
  | .map es =>
    match entriesGetStr ("text") es with
    | some (.map es2) =>
      match entriesGetStr ("*") es2 with
      | some (.str h) => some h
      | _ => Option.none
    | _ => Option.none
  | _ => Option.none

/-- `html_to_markdown` (cli.py lines 125-130).  The html2text converter
(width 0, images and links kept) is the collaborator `h2m`; the source then
strips the converted text. -/
def html_to_markdown (h2m : String → String) (value : String) : String :=
  pyStrip (h2m value)

/-- The attributes `getattr(target, "name", ...)` / `getattr(target,
"title", ...)` read off the target object; `Option.none` means the attribute
is missing. -/
structure TargetAttrs where
  name : Option String
  title : Option String

def targetDisplayName (t : TargetAttrs) (argsTitle : String) : String :=
  match t.name with
  | some n => n
  | Option.none =>
    match t.title with
    | some ti => ti
    | Option.none => argsTitle

/-- External collaborators of `maybe_convert_markdown`: the html2text
converter and `target.site.parse(text=..., title=...)`. -/
structure MdCtx where
  h2m : String → String
  siteParse : String → Option String → PyVal

def asStr : PyVal → Option String
  | .str s => some s
  | _ => Option.none

/-- `f"{heading}\n\n{body}" if body else heading` (the expression the source
uses in both arms of the page-text branch). -/
def joinHeadingBody (heading body : String) : String :=
  if body = "" then heading else heading ++ "\n\n" ++ body

/-- `maybe_convert_markdown` (cli.py lines 147-170). -/
def maybe_convert_markdown (ctx : MdCtx) (markdown : Bool) (command method argsTitle : String)
    (target : TargetAttrs) (result : PyVal) : PyVal :=
  if !markdown then result
  else
    match (if command = "page" ∧ method = "text" then asStr result else Option.none) with
    | some s =>
      let parseData := ctx.siteParse s target.name
      let parseHtml := extract_parse_html parseData
      let title := normalize_page_title (targetDisplayName target argsTitle)
      let heading := pyStrip ("# " ++ title)
      (match parseHtml with
       | some h =>
         if h = "" then .str (joinHeadingBody heading (pyStrip s))
         else .str (joinHeadingBody heading (pyStrip (html_to_markdown ctx.h2m h)))
       | Option.none => .str (joinHeadingBody heading (pyStrip s)))
    | Option.none =>
      if command = "site" ∧ method = "parse" then
        match extract_parse_html result with
        | some h => if h = "" then result else .str (html_to_markdown ctx.h2m h)
        | Option.none => result
      else result

/-! ## cli.py: run — validation order, dispatch and emission -/

/-- The network operations of the invocation: `Site(...)` construction
(which performs `site_init` unless `--no-init`), `site.login`, the single
dispatched method call, and the `target.site.parse` call the markdown
post-processor makes. -/
inductive NetOp : Type where
  | siteConstruct : NetOp
  | login : NetOp
  | dispatch : NetOp
  | siteParse : NetOp
  deriving DecidableEq

/-- Observable steps of `run` after argument parsing: network operations,
target resolution (`site.pages[title]` / `site.images[title]`, whose own
network behaviour belongs to the external library), and emission of one JSON
document (`print_json`, which normalizes) or plain text (`print_text`). -/
inductive Ev : Type where
  | net : NetOp → Ev
  | targetResolve : Ev
  | emitJson : PyVal → Ev
  | emitText : String → Ev
  deriving DecidableEq

def isNetEv : Ev → Bool
  | .net _ => true
  | _ => false

/-- The `parser.error` outcomes of `run` (cli.py lines 352-367). -/
inductive UsageError : Type where
  | missingHost : UsageError
  | credentialMismatch : UsageError
  | invalidKwToken : String → UsageError
  | emptyKwKey : UsageError
  | unknownMethod : String → String → UsageError
  deriving DecidableEq

/-- What the dispatched method returns: a value, or a lazy forward-only
iterator producing the given items in order. -/
inductive DispatchResult : Type where
  | val : PyVal → DispatchResult
  | iter : List PyVal → DispatchResult

/-- The parsed CLI arguments reaching the call path of `run` (`command` is
one of site/page/image; the `methods` subcommand never reaches this path). -/
structure RunArgs where
  command : String
  title : String
  method : String
  host : Option String
  username : Option String
  password : Option String
  positional : List String
  kw : List String
  stream : Bool
  maxItems : Option Int
  markdown : Bool
  noInit : Bool
  allowAnon : Bool

/-- The external world `run` interacts with: the reflected public-method
sets, the result of the one dispatched call, the site.parse renderer, the
html2text converter and the target object attributes. -/
structure Upstream where
  methods : String → List String
  callResult : DispatchResult
  siteParse : String → Option String → PyVal
  h2m : String → String
  targetName : Option String
  targetTitle : Option String

/-- The iterator-emission loop of `run` (cli.py lines 372-380): each `for`
step is one production step (`next`); the item is printed as JSON
(normalized), the count incremented, and the loop breaks once
`count >= max_items` when a cap is set.  Returns the printed values and the
number of production steps taken (reaching exhaustion costs one step). -/
def streamLoop (maxItems : Option Int) : List PyVal → Nat → List PyVal × Nat
  | [], _ => ([], 1)
  | item :: rest, count =>
    let printed := normalize_result item
    let count2 := count + 1
    match maxItems with
    | some m =>
      if m ≤ (count2 : Int) then ([printed], 1)
      else
        let r := streamLoop maxItems rest count2
        (printed :: r.1, r.2 + 1)
    | Option.none =>
      let r := streamLoop maxItems rest count2
      (printed :: r.1, r.2 + 1)

/-- Python `result[:m]` on a materialized sequence, including the negative
slice bound. -/
def pySliceTake (m : Int) (l : List PyVal) : List PyVal :=
  if 0 ≤ m then l.take m.toNat else l.take (l.length - m.natAbs)

/-- The events of `build_site` and `build_target`: site construction (with
`site_init` unless `--no-init`), login when credentials are given, and
page/image target resolution. -/
def preNetEvents (a : RunArgs) : List Ev :=
  [Ev.net .siteConstruct]
    ++ (if optTruthy a.username then [Ev.net .login] else [])
    ++ (if a.command = "page" ∨ a.command = "image" then [Ev.targetResolve] else [])

/-- The `target.site.parse` call `maybe_convert_markdown` makes, exactly in
the page-text-string case with the markdown flag on. -/
def mdParseEvents (a : RunArgs) (v : PyVal) : List Ev :=
  if a.markdown ∧ a.command = "page" ∧ a.method = "text" ∧ (asStr v).isSome
  then [Ev.net .siteParse] else []

/-- Emission of a non-iterator result (cli.py lines 382-393): streamed JSON
lines for list/tuple results under `--stream` (with the Python slice cap),
plain text for a string under `--markdown`, one JSON document otherwise. -/
def emitValueEvents (a : RunArgs) (v2 : PyVal) : List Ev :=
  match v2 with
  | .list xs =>
    if a.stream then
      (match a.maxItems with
       | some m => pySliceTake m (pyListToList xs)
       | Option.none => pyListToList xs).map (fun x => Ev.emitJson (normalize_result x))
    else [Ev.emitJson (normalize_result v2)]
  | .tuple xs =>
    if a.stream then
      (match a.maxItems with
       | some m => pySliceTake m (pyListToList xs)
       | Option.none => pyListToList xs).map (fun x => Ev.emitJson (normalize_result x))
    else [Ev.emitJson (normalize_result v2)]
  | .str s =>
    if a.markdown then [Ev.emitText (rstripNewlines s)]
    else [Ev.emitJson (normalize_result v2)]
  | _ => [Ev.emitJson (normalize_result v2)]

/-- `run` (cli.py lines 341-393) from the host check on, as a trace of
observable steps plus an outcome.  `parser.error` aborts with a usage error
and nothing further happens; the dispatched call itself is the oracle
`U.callResult`. -/
def runModel (U : Upstream) (a : RunArgs) : List Ev × Except UsageError Unit :=
  if optTruthy a.host = false then ([], .error .missingHost)
  else if optTruthy a.username ≠ optTruthy a.password then ([], .error .credentialMismatch)
  else
    let _positionals := a.positional.map parse_cli_value
    match parse_keyword_args a.kw with
    | .error (.invalidToken item) => ([], .error (.invalidKwToken item))
    | .error .emptyKey => ([], .error .emptyKwKey)
    | .ok _kwargs =>
      if ¬ (a.method ∈ U.methods a.command) then
        (preNetEvents a, .error (.unknownMethod a.command a.method))
      else
        match U.callResult with
        | .iter items =>
          let r := streamLoop a.maxItems items 0
          (preNetEvents a ++ [Ev.net .dispatch] ++ r.1.map Ev.emitJson, .ok ())
        | .val v =>
          let v2 := maybe_convert_markdown ⟨U.h2m, U.siteParse⟩ a.markdown a.command a.method
            a.title ⟨U.targetName, U.targetTitle⟩ v
          (preNetEvents a ++ [Ev.net .dispatch] ++ mdParseEvents a v ++ emitValueEvents a v2,
            .ok ())

/-- The coercion of the value text of the last token of `items` whose key is
`k` (the specification-side description of last-occurrence-wins). -/
def kwLast (k : String) (items : List String) : Option PyVal :=
  items.reverse.findSome? (fun item =>
    match splitOnceEq item with
    | some kv => if kv.1 = k then some (parse_cli_value kv.2) else Option.none
    | Option.none => Option.none)

/-- Entries whose keys are strings and whose values are fixed points of
normalization. -/
def EntriesGood : PyEntries → Prop
  | .nil => True
  | .cons k v rest => (∃ s, k = PyVal.str s) ∧ normalize_result v = v ∧ EntriesGood rest

/-- No string key occurs twice (all keys being strings where it matters). -/
def strKeyedNodup : PyEntries → Bool
  | .nil => true
  | .cons k _ rest =>
    (match k with | .str s => !(hasStrKey s rest) | _ => true) && strKeyedNodup rest

/-- The item `{"n": i}` of the spec's streaming example. -/
def nItem (i : Int) : PyVal := .map (.cons (.str "n") (.int i) .nil)

/-- A collaborator whose render step never yields a usable fragment, for
witnessing the fallback path. -/
def plainCtx : MdCtx := ⟨fun _ => "", fun _ _ => PyVal.pnone⟩

/-- All four validations pass, so the dispatched call happens. -/
def dispatchReaches (U : Upstream) (a : RunArgs) : Bool :=
  optTruthy a.host && (optTruthy a.username == optTruthy a.password) &&
    exceptOk (parse_keyword_args a.kw) && decide (a.method ∈ U.methods a.command)

/-- The dispatched call returned a string. -/
def resultIsStr (U : Upstream) : Bool :=
  match U.callResult with
  | .val v => (asStr v).isSome
  | .iter _ => false

/-- A concrete world for the unknown-method scenario: a reachable host, no
credentials, a site entity whose only public method is `ping`. -/
def cexUpstream : Upstream :=
  ⟨fun _ => ["ping"], .val .pnone, fun _ _ => .pnone, fun _ => "", Option.none, Option.none⟩

def cexArgs : RunArgs :=
  ⟨"site", "", "nope", some ("example.org"), Option.none, Option.none,
    [], [], false, Option.none, false, false, false⟩

/-- A concrete world for the markdown page-text scenario: `page P text`
returning a string, markdown flag on. -/
def mdUpstream : Upstream :=
  ⟨fun _ => ["text"], .val (.str ("hello")), fun _ _ => .pnone, fun _ => "",
    some ("P"), Option.none⟩

def mdArgs : RunArgs :=
  ⟨"page", "P", "text", some ("h"), Option.none, Option.none,
    [], [], false, Option.none, true, false, false⟩

/-! ## Lemmas about the keyword-argument builder -/

theorem dictInsert_mem (l : List (String × PyVal)) (k : String) (v : PyVal)
    (kv : String × PyVal) : kv ∈ dictInsert k v l → kv = (k, v) ∨ kv ∈ l := by
  induction l with
  | nil =>
    intro h
    simp only [dictInsert, List.mem_singleton] at h
    exact Or.inl h
  | cons hd tl ih =>
    intro h
    obtain ⟨k2, v2⟩ := hd
    simp only [dictInsert] at h
    by_cases hk : k2 = k
    · simp [hk] at h
      exact h.elim (fun h1 => Or.inl (by simp [h1])) (fun h1 => Or.inr (List.mem_cons_of_mem _ h1))
    · simp only [if_neg hk, List.mem_cons] at h
      refine h.elim (fun h1 => Or.inr (by simp [h1])) (fun h1 => ?_)
      exact (ih h1).elim (fun h2 => Or.inl h2) (fun h2 => Or.inr (List.mem_cons_of_mem _ h2))

theorem parseKwGo_ok (items : List String) : ∀ acc,
    exceptOk (parseKwGo acc items) = items.all kwTokenOk := by
  induction items with
  | nil => intro acc; rfl
  | cons item rest ih =>
    intro acc
    cases hs : splitOnceEq item with
    | none => simp [parseKwGo, hs, exceptOk, kwTokenOk]
    | some p =>
      by_cases hk : p.1 = ""
      · simp [parseKwGo, hs, hk, exceptOk, kwTokenOk]
      · simp [parseKwGo, hs, hk, kwTokenOk, ih]

theorem parseKwGo_mem (items : List String) : ∀ acc kwargs,
    parseKwGo acc items = .ok kwargs → ∀ kv ∈ kwargs, kv ∈ acc ∨
      ∃ item ∈ items, ∃ raw, splitOnceEq item = some (kv.1, raw) ∧
        kv.2 = parse_cli_value raw := by
  induction items with
  | nil =>
    intro acc kwargs h kv hm
    simp only [parseKwGo] at h
    cases h
    exact Or.inl hm
  | cons item rest ih =>
    intro acc kwargs h kv hm
    cases hs : splitOnceEq item with
    | none => simp [parseKwGo, hs] at h
    | some p =>
      by_cases hk : p.1 = ""
      · simp [parseKwGo, hs, if_pos hk] at h
      · simp only [parseKwGo, hs, if_neg hk] at h
        rcases ih _ _ h kv hm with hin | ⟨it, hit, raw, hsp, hval⟩
        · rcases dictInsert_mem _ _ _ _ hin with he | hacc
          · refine Or.inr ⟨item, List.mem_cons_self _ _, p.2, ?_, by simp [he]⟩
            rw [hs, he]
          · exact Or.inl hacc
        · exact Or.inr ⟨it, List.mem_cons_of_mem _ hit, raw, hsp, hval⟩

/-- C1.  Value coercion (`parse_cli_value`) is total on strings: when the
input decodes as JSON the decoded value is returned, otherwise the input
string itself, and no error is possible; the spec's examples evaluate as
stated, including a malformed input with an unbalanced brace. -/
theorem C1_value_coercion_total :
    (∀ s v, jsonLoads s = some v → parse_cli_value s = v) ∧
    (∀ s, jsonLoads s = Option.none → parse_cli_value s = .str s) ∧
    parse_cli_value ("3") = .int 3 ∧
    parse_cli_value ("true") = .bool true ∧
    parse_cli_value ("[1,2]") = .list (.cons (.int 1) (.cons (.int 2) .nil)) ∧
    parse_cli_value ("hello") = .str "hello" ∧
    parse_cli_value ("\x7b") = .str "\x7b" := by
  refine ⟨?_, ?_, rfl, rfl, rfl, rfl, rfl⟩
  · intro s v h
    unfold parse_cli_value
    rw [h]
  · intro s h
    unfold parse_cli_value
    rw [h]

/-- C2.  The keyword builder fails exactly when some token lacks a `=` or
has an empty key, and on success each produced binding comes from a token
whose key it carries, with the text after the first `=` coerced by
`parse_cli_value`; the spec's examples evaluate as stated. -/
theorem C2_keyword_builder :
    (∀ items, exceptOk (parse_keyword_args items) = items.all kwTokenOk) ∧
    (∀ items kwargs, parse_keyword_args items = .ok kwargs →
      ∀ kv ∈ kwargs, ∃ item ∈ items, ∃ raw, splitOnceEq item = some (kv.1, raw) ∧
        kv.2 = parse_cli_value raw) ∧
    parse_keyword_args ["a=1", "b=true", "c=raw"] =
      .ok [("a", .int 1), ("b", .bool true), ("c", .str "raw")] ∧
    parse_keyword_args ["broken"] = .error (.invalidToken "broken") ∧
    parse_keyword_args ["=1"] = .error .emptyKey := by
  refine ⟨fun items => parseKwGo_ok items [], fun items kwargs h kv hm => ?_, rfl, rfl, rfl⟩
  rcases parseKwGo_mem items [] kwargs h kv hm with hin | hfound
  · cases hin
  · exact hfound

/-! ## Duplicate keyword keys: last occurrence wins -/

theorem lookupPairs_dictInsert (l : List (String × PyVal)) (k k2 : String) (v : PyVal) :
    lookupPairs k2 (dictInsert k v l) = if k = k2 then some v else lookupPairs k2 l := by
  induction l with
  | nil =>
    by_cases h : k = k2
    · simp [dictInsert, lookupPairs, h]
    · simp [dictInsert, lookupPairs, h, Ne.symm h]
  | cons hd tl ih =>
    obtain ⟨k3, v3⟩ := hd
    by_cases h3 : k3 = k
    · subst h3
      by_cases h2 : k3 = k2
      · simp [dictInsert, lookupPairs, h2]
      · simp [dictInsert, lookupPairs, h2]
    · by_cases h2 : k3 = k2
      · subst h2
        have : ¬(k = k3) := fun hh => h3 hh.symm
        simp [dictInsert, lookupPairs, h3, this]
      · simp [dictInsert, lookupPairs, h3, h2, ih]

theorem dictInsert_keys_mem (l : List (String × PyVal)) (k : String) (v : PyVal) (k3 : String) :
    k3 ∈ (dictInsert k v l).map Prod.fst ↔ (k3 ∈ l.map Prod.fst ∨ k3 = k) := by
  induction l with
  | nil => simp [dictInsert]
  | cons hd tl ih =>
    obtain ⟨k2, v2⟩ := hd
    by_cases hk : k2 = k
    · subst hk
      simp [dictInsert]
      tauto
    · simp [dictInsert, hk, ih]
      tauto

theorem dictInsert_keys_nodup (l : List (String × PyVal)) (k : String) (v : PyVal)
    (h : (l.map Prod.fst).Nodup) : ((dictInsert k v l).map Prod.fst).Nodup := by
  induction l with
  | nil => simp [dictInsert]
  | cons hd tl ih =>
    obtain ⟨k2, v2⟩ := hd
    simp only [List.map_cons, List.nodup_cons] at h
    by_cases hk : k2 = k
    · subst hk
      simpa [dictInsert] using h
    · simp only [dictInsert, if_neg hk, List.map_cons, List.nodup_cons]
      refine ⟨fun hin => ?_, ih h.2⟩
      rcases (dictInsert_keys_mem tl k v k2).mp hin with hmem | heq
      · exact h.1 hmem
      · exact hk heq

theorem parseKwGo_nodup (items : List String) : ∀ acc kwargs,
    (acc.map Prod.fst).Nodup → parseKwGo acc items = .ok kwargs →
      (kwargs.map Prod.fst).Nodup := by
  induction items with
  | nil =>
    intro acc kwargs hnd h
    simp only [parseKwGo] at h
    cases h
    exact hnd
  | cons item rest ih =>
    intro acc kwargs hnd h
    cases hs : splitOnceEq item with
    | none => simp [parseKwGo, hs] at h
    | some p =>
      by_cases hk : p.1 = ""
      · simp [parseKwGo, hs, if_pos hk] at h
      · simp only [parseKwGo, hs, if_neg hk] at h
        exact ih _ _ (dictInsert_keys_nodup acc p.1 (parse_cli_value p.2) hnd) h

theorem parseKwGo_lookup (items : List String) : ∀ acc kwargs (k : String),
    parseKwGo acc items = .ok kwargs →
      lookupPairs k kwargs = (kwLast k items).or (lookupPairs k acc) := by
  induction items with
  | nil =>
    intro acc kwargs k h
    simp only [parseKwGo] at h
    cases h
    simp [kwLast]
  | cons item rest ih =>
    intro acc kwargs k h
    cases hs : splitOnceEq item with
    | none => simp [parseKwGo, hs] at h
    | some p =>
      by_cases hk : p.1 = ""
      · simp [parseKwGo, hs, if_pos hk] at h
      · simp only [parseKwGo, hs, if_neg hk] at h
        have hrec := ih _ _ k h
        rw [hrec, lookupPairs_dictInsert]
        have hlast : kwLast k (item :: rest) = (kwLast k rest).or
            (if p.1 = k then some (parse_cli_value p.2) else Option.none) := by
          simp only [kwLast, List.reverse_cons, List.findSome?_append]
          congr 1
          by_cases hpk : p.1 = k
          · simp [List.findSome?_cons, hs, hpk]
          · simp [List.findSome?_cons, hs, hpk]
        rw [hlast, Option.or_assoc]
        congr 1
        by_cases hpk : p.1 = k
        · simp [hpk]
        · simp [hpk, Ne.symm hpk]

/-- C8 counterexample: with the same key in two tokens the builder neither
rejects nor keeps the first occurrence; it succeeds with the coercion of the
last occurrence (`a=2` overrides `a=1`). -/
theorem C8_counterexample :
    parse_keyword_args ["a=1", "a=2"] = .ok [("a", .int 2)] ∧
    exceptOk (parse_keyword_args ["a=1", "a=2"]) = true ∧
    ¬(PyVal.int 2 = PyVal.int 1) := by
  refine ⟨rfl, rfl, by decide⟩

/-- C8 (amended).  The keyword mapping has unique keys, and the duplicate-key
policy is last-occurrence-wins: each key maps to the coercion of the value
text of its last token. -/
theorem C8_amended (items : List String) (kwargs : List (String × PyVal))
    (h : parse_keyword_args items = .ok kwargs) :
    (kwargs.map Prod.fst).Nodup ∧
    (∀ k, lookupPairs k kwargs = kwLast k items) ∧
    parse_keyword_args ["a=1", "a=2"] = .ok [("a", .int 2)] := by
  refine ⟨parseKwGo_nodup items [] kwargs (by simp) h, fun k => ?_, rfl⟩
  have := parseKwGo_lookup items [] kwargs k h
  simpa [lookupPairs] using this

/-- C8 witness: the amended statement at the duplicate-key input. -/
theorem C8_witness :
    (([("a", PyVal.int 2)]).map Prod.fst).Nodup ∧
    (∀ k, lookupPairs k [("a", PyVal.int 2)] = kwLast k ["a=1", "a=2"]) ∧
    parse_keyword_args ["a=1", "a=2"] = .ok [("a", .int 2)] :=
  C8_amended ["a=1", "a=2"] [("a", PyVal.int 2)] rfl

/-! ## Lemmas about the result normalizer -/

theorem entriesAppend_nil : ∀ es : PyEntries, entriesAppend es .nil = es
  | .nil => rfl
  | .cons k v rest => by simp [entriesAppend, entriesAppend_nil rest]

theorem entriesAppend_assoc : ∀ a b c : PyEntries,
    entriesAppend (entriesAppend a b) c = entriesAppend a (entriesAppend b c)
  | .nil, _, _ => rfl
  | .cons k v rest, b, c => by simp [entriesAppend, entriesAppend_assoc rest b c]

theorem entriesNormalized_cons_elim (k v : PyVal) (rest : PyEntries)
    (h : entriesNormalized (.cons k v rest) = true) :
    (∃ s, k = PyVal.str s) ∧ isNormalized v = true ∧ entriesNormalized rest = true := by
  cases k <;> simp [entriesNormalized] at h
  exact ⟨⟨_, rfl⟩, h.1, h.2⟩

theorem entriesNormalized_dictInsertStr : ∀ (es : PyEntries) (k : String) (v : PyVal),
    entriesNormalized es = true → isNormalized v = true →
      entriesNormalized (dictInsertStr k v es) = true
  | .nil, k, v, _, hv => by simp [dictInsertStr, entriesNormalized, hv]
  | .cons k2 v2 rest, k, v, h, hv => by
    obtain ⟨⟨s2, hk2⟩, hv2, hrest⟩ := entriesNormalized_cons_elim k2 v2 rest h
    subst hk2
    by_cases hs : s2 = k
    · simp [dictInsertStr, hs, entriesNormalized, hv, hrest]
    · simp [dictInsertStr, hs, entriesNormalized, hv2,
        entriesNormalized_dictInsertStr rest k v hrest hv]

mutual
theorem isNormalized_normalize : ∀ v : PyVal, isNormalized (normalize_result v) = true
  | .pnone => rfl
  | .bool _ => rfl
  | .int _ => rfl
  | .float _ => rfl
  | .str _ => rfl
  | .bytes bs => by simp [normalize_result, isNormalized, entriesNormalized]
  | .map es => by
    have h := entriesNormalized_normEntries es .nil rfl
    simpa [normalize_result, isNormalized] using h
  | .list xs => by
    have h := listNormalized_normList xs
    simpa [normalize_result, isNormalized] using h
  | .tuple xs => by
    have h := listNormalized_normList xs
    simpa [normalize_result, isNormalized] using h
  | .set xs => by
    have h := listNormalized_normList xs
    simpa [normalize_result, isNormalized] using h
  | .other _ => rfl
theorem listNormalized_normList : ∀ xs : PyList, listNormalized (normList xs) = true
  | .nil => rfl
  | .cons x xs => by
    have h1 := isNormalized_normalize x
    have h2 := listNormalized_normList xs
    simp [normList, listNormalized, h1, h2]
theorem entriesNormalized_normEntries : ∀ (es acc : PyEntries),
    entriesNormalized acc = true → entriesNormalized (normEntries es acc) = true
  | .nil, acc, h => by simpa [normEntries] using h
  | .cons k v rest, acc, h => by
    have hv := isNormalized_normalize v
    have hacc := entriesNormalized_dictInsertStr acc (pyStr k) (normalize_result v) h hv
    have hrec := entriesNormalized_normEntries rest _ hacc
    simpa [normEntries] using hrec
end

theorem pyListToList_normList : ∀ xs : PyList,
    pyListToList (normList xs) = (pyListToList xs).map normalize_result
  | .nil => rfl
  | .cons x xs => by simp [normList, pyListToList, pyListToList_normList xs]

/-- C4.  Every output of `normalize_result` satisfies the NormalizedValue
shape invariant (only null, booleans, numbers, strings, string-keyed
mappings of normalized values, sequences of normalized values); bytes become
the tagged base64-and-size object; an unrecognized value becomes its `repr`
string; and sequence order is preserved (the output elements are the
elementwise normalizations, in order). -/
theorem C4_normalizer_shape :
    (∀ v, isNormalized (normalize_result v) = true) ∧
    (∀ bs, normalize_result (.bytes bs) =
      .map (.cons (.str "__type__") (.str "bytes")
        (.cons (.str "base64") (.str (base64Encode bs))
          (.cons (.str "size") (.int bs.length) .nil)))) ∧
    (∀ r, normalize_result (.other r) = .str r) ∧
    (∀ xs, listElems (normalize_result (.list xs)) =
      some ((pyListToList xs).map normalize_result)) := by
  refine ⟨isNormalized_normalize, fun bs => rfl, fun r => rfl, fun xs => ?_⟩
  simp [normalize_result, listElems, pyListToList_normList]

/-! ## Idempotence machinery: already-normalized entries are fixed points -/

theorem hasStrKey_dictInsertStr : ∀ (es : PyEntries) (k k2 : String) (v : PyVal),
    hasStrKey k2 (dictInsertStr k v es) = (hasStrKey k2 es || decide (k = k2))
  | .nil, k, k2, v => by simp [dictInsertStr, hasStrKey, decide_eq_decide, eq_comm]
  | .cons k3 v3 rest, k, k2, v => by
    cases k3 with
    | str s3 =>
      by_cases hs : s3 = k
      · subst hs
        by_cases h2 : s3 = k2
        · simp [dictInsertStr, hasStrKey, h2]
        · simp [dictInsertStr, hasStrKey, h2]
      · simp [dictInsertStr, hs, hasStrKey,
          hasStrKey_dictInsertStr rest k k2 v, Bool.or_assoc]
    | pnone => simp [dictInsertStr, hasStrKey, hasStrKey_dictInsertStr rest k k2 v]
    | bool b => simp [dictInsertStr, hasStrKey, hasStrKey_dictInsertStr rest k k2 v]
    | int n => simp [dictInsertStr, hasStrKey, hasStrKey_dictInsertStr rest k k2 v]
    | float f => simp [dictInsertStr, hasStrKey, hasStrKey_dictInsertStr rest k k2 v]
    | bytes bs => simp [dictInsertStr, hasStrKey, hasStrKey_dictInsertStr rest k k2 v]
    | map es2 => simp [dictInsertStr, hasStrKey, hasStrKey_dictInsertStr rest k k2 v]
    | list xs => simp [dictInsertStr, hasStrKey, hasStrKey_dictInsertStr rest k k2 v]
    | tuple xs => simp [dictInsertStr, hasStrKey, hasStrKey_dictInsertStr rest k k2 v]
    | set xs => simp [dictInsertStr, hasStrKey, hasStrKey_dictInsertStr rest k k2 v]
    | other r => simp [dictInsertStr, hasStrKey, hasStrKey_dictInsertStr rest k k2 v]

theorem dictInsertStr_absent : ∀ (es : PyEntries) (k : String) (v : PyVal),
    hasStrKey k es = false →
      dictInsertStr k v es = entriesAppend es (.cons (.str k) v .nil)
  | .nil, k, v, _ => rfl
  | .cons k2 v2 rest, k, v, h => by
    cases k2 with
    | str s2 =>
      simp only [hasStrKey, Bool.or_eq_false_iff] at h
      have hs : ¬(s2 = k) := by
        intro he
        rw [he] at h
        simp at h
      simp [dictInsertStr, hs, entriesAppend, dictInsertStr_absent rest k v h.2]
    | pnone =>
      simp only [hasStrKey] at h
      simp [dictInsertStr, entriesAppend, dictInsertStr_absent rest k v h]
    | bool b =>
      simp only [hasStrKey] at h
      simp [dictInsertStr, entriesAppend, dictInsertStr_absent rest k v h]
    | int n =>
      simp only [hasStrKey] at h
      simp [dictInsertStr, entriesAppend, dictInsertStr_absent rest k v h]
    | float f =>
      simp only [hasStrKey] at h
      simp [dictInsertStr, entriesAppend, dictInsertStr_absent rest k v h]
    | bytes bs =>
      simp only [hasStrKey] at h
      simp [dictInsertStr, entriesAppend, dictInsertStr_absent rest k v h]
    | map es2 =>
      simp only [hasStrKey] at h
      simp [dictInsertStr, entriesAppend, dictInsertStr_absent rest k v h]
    | list xs =>
      simp only [hasStrKey] at h
      simp [dictInsertStr, entriesAppend, dictInsertStr_absent rest k v h]
    | tuple xs =>
      simp only [hasStrKey] at h
      simp [dictInsertStr, entriesAppend, dictInsertStr_absent rest k v h]
    | set xs =>
      simp only [hasStrKey] at h
      simp [dictInsertStr, entriesAppend, dictInsertStr_absent rest k v h]
    | other r =>
      simp only [hasStrKey] at h
      simp [dictInsertStr, entriesAppend, dictInsertStr_absent rest k v h]

theorem EntriesGood_dictInsertStr : ∀ (es : PyEntries) (k : String) (v : PyVal),
    EntriesGood es → normalize_result v = v → EntriesGood (dictInsertStr k v es)
  | .nil, k, v, _, hv => ⟨⟨k, rfl⟩, hv, trivial⟩
  | .cons k2 v2 rest, k, v, h, hv => by
    obtain ⟨⟨s2, hk2⟩, hv2, hrest⟩ := h
    subst hk2
    by_cases hs : s2 = k
    · simp only [dictInsertStr, if_pos hs]
      exact ⟨⟨s2, rfl⟩, hv, hrest⟩
    · simp only [dictInsertStr, if_neg hs]
      exact ⟨⟨s2, rfl⟩, hv2, EntriesGood_dictInsertStr rest k v hrest hv⟩

theorem strKeyedNodup_dictInsertStr : ∀ (es : PyEntries) (k : String) (v : PyVal),
    strKeyedNodup es = true → strKeyedNodup (dictInsertStr k v es) = true
  | .nil, k, v, _ => by simp [dictInsertStr, strKeyedNodup, hasStrKey]
  | .cons k2 v2 rest, k, v, h => by
    cases k2 with
    | str s2 =>
      simp only [strKeyedNodup, Bool.and_eq_true, Bool.not_eq_true'] at h
      by_cases hs : s2 = k
      · simp only [dictInsertStr, if_pos hs]
        simp [strKeyedNodup, h.1, h.2]
      · simp only [dictInsertStr, if_neg hs]
        simp only [strKeyedNodup, Bool.and_eq_true, Bool.not_eq_true']
        refine ⟨?_, strKeyedNodup_dictInsertStr rest k v h.2⟩
        rw [hasStrKey_dictInsertStr rest k s2 v]
        simp [h.1, Ne.symm hs]
    | pnone =>
      simp only [strKeyedNodup, Bool.and_eq_true, true_and] at h
      simp [dictInsertStr, strKeyedNodup, strKeyedNodup_dictInsertStr rest k v h]
    | bool b =>
      simp only [strKeyedNodup, Bool.and_eq_true, true_and] at h
      simp [dictInsertStr, strKeyedNodup, strKeyedNodup_dictInsertStr rest k v h]
    | int n =>
      simp only [strKeyedNodup, Bool.and_eq_true, true_and] at h
      simp [dictInsertStr, strKeyedNodup, strKeyedNodup_dictInsertStr rest k v h]
    | float f =>
      simp only [strKeyedNodup, Bool.and_eq_true, true_and] at h
      simp [dictInsertStr, strKeyedNodup, strKeyedNodup_dictInsertStr rest k v h]
    | bytes bs =>
      simp only [strKeyedNodup, Bool.and_eq_true, true_and] at h
      simp [dictInsertStr, strKeyedNodup, strKeyedNodup_dictInsertStr rest k v h]
    | map es2 =>
      simp only [strKeyedNodup, Bool.and_eq_true, true_and] at h
      simp [dictInsertStr, strKeyedNodup, strKeyedNodup_dictInsertStr rest k v h]
    | list xs =>
      simp only [strKeyedNodup, Bool.and_eq_true, true_and] at h
      simp [dictInsertStr, strKeyedNodup, strKeyedNodup_dictInsertStr rest k v h]
    | tuple xs =>
      simp only [strKeyedNodup, Bool.and_eq_true, true_and] at h
      simp [dictInsertStr, strKeyedNodup, strKeyedNodup_dictInsertStr rest k v h]
    | set xs =>
      simp only [strKeyedNodup, Bool.and_eq_true, true_and] at h
      simp [dictInsertStr, strKeyedNodup, strKeyedNodup_dictInsertStr rest k v h]
    | other r =>
      simp only [strKeyedNodup, Bool.and_eq_true, true_and] at h
      simp [dictInsertStr, strKeyedNodup, strKeyedNodup_dictInsertStr rest k v h]

theorem normEntries_nodup : ∀ (es acc : PyEntries),
    strKeyedNodup acc = true → strKeyedNodup (normEntries es acc) = true
  | .nil, acc, h => by simpa [normEntries] using h
  | .cons k v rest, acc, h => by
    have hacc := strKeyedNodup_dictInsertStr acc (pyStr k) (normalize_result v) h
    have hrec := normEntries_nodup rest _ hacc
    simpa [normEntries] using hrec

theorem normEntries_fixed : ∀ (es acc : PyEntries),
    EntriesGood es → strKeyedNodup es = true →
      (∀ s, hasStrKey s es = true → hasStrKey s acc = false) →
      normEntries es acc = entriesAppend acc es
  | .nil, acc, _, _, _ => by simp [normEntries, entriesAppend_nil]
  | .cons k v rest, acc, hg, hnd, hdisj => by
    obtain ⟨⟨s, hk⟩, hv, hgrest⟩ := hg
    subst hk
    simp only [strKeyedNodup, Bool.and_eq_true, Bool.not_eq_true'] at hnd
    have habs : hasStrKey s acc = false := hdisj s (by simp [hasStrKey])
    have hacc2 : dictInsertStr (pyStr (PyVal.str s)) (normalize_result v) acc =
        entriesAppend acc (.cons (.str s) v .nil) := by
      have : pyStr (PyVal.str s) = s := rfl
      rw [this, hv, dictInsertStr_absent acc s v habs]
    have hdisj2 : ∀ s2, hasStrKey s2 rest = true →
        hasStrKey s2 (entriesAppend acc (.cons (.str s) v .nil)) = false := by
      intro s2 h2
      have h3 : hasStrKey s2 acc = false := hdisj s2 (by simp [hasStrKey, h2])
      have h4 : ¬(s = s2) := by
        intro he
        rw [← he] at h2
        rw [h2] at hnd
        exact absurd hnd.1 (by simp)
      rw [← dictInsertStr_absent acc s v habs, hasStrKey_dictInsertStr]
      simp [h3, h4]
    rw [normEntries, hacc2, normEntries_fixed rest _ hgrest hnd.2 hdisj2,
      entriesAppend_assoc]
    rfl

mutual
theorem normalize_result_idem : ∀ v : PyVal,
    normalize_result (normalize_result v) = normalize_result v
  | .pnone => rfl
  | .bool _ => rfl
  | .int _ => rfl
  | .float _ => rfl
  | .str _ => rfl
  | .bytes bs => by
    have hg : EntriesGood (.cons (.str "__type__") (.str "bytes")
        (.cons (.str "base64") (.str (base64Encode bs))
          (.cons (.str "size") (.int bs.length) .nil))) :=
      ⟨⟨_, rfl⟩, rfl, ⟨_, rfl⟩, rfl, ⟨_, rfl⟩, rfl, trivial⟩
    have hnd : strKeyedNodup (.cons (.str "__type__") (.str "bytes")
        (.cons (.str "base64") (.str (base64Encode bs))
          (.cons (.str "size") (.int bs.length) .nil))) = true := by
      simp [strKeyedNodup, hasStrKey]
    have hfix := normEntries_fixed _ .nil hg hnd (fun _ _ => rfl)
    simp only [normalize_result]
    rw [hfix]
    rfl
  | .map es => by
    have hg := normEntries_good es .nil trivial
    have hnd := normEntries_nodup es .nil rfl
    have hfix := normEntries_fixed _ .nil hg hnd (fun _ _ => rfl)
    simp only [normalize_result]
    rw [hfix]
    rfl
  | .list xs => by simp [normalize_result, normList_idem xs]
  | .tuple xs => by simp [normalize_result, normList_idem xs]
  | .set xs => by simp [normalize_result, normList_idem xs]
  | .other _ => rfl
theorem normList_idem : ∀ xs : PyList, normList (normList xs) = normList xs
  | .nil => rfl
  | .cons x xs => by simp [normList, normalize_result_idem x, normList_idem xs]
theorem normEntries_good : ∀ (es acc : PyEntries),
    EntriesGood acc → EntriesGood (normEntries es acc)
  | .nil, acc, h => by simpa [normEntries] using h
  | .cons k v rest, acc, h => by
    have hins := EntriesGood_dictInsertStr acc (pyStr k) (normalize_result v) h
      (normalize_result_idem v)
    have hrec := normEntries_good rest _ hins
    simpa [normEntries] using hrec
end

/-- C5.  `normalize_result` is idempotent: normalizing an already-normalized
value changes nothing. -/
theorem C5_normalizer_idempotent : ∀ v : PyVal,
    normalize_result (normalize_result v) = normalize_result v :=
  normalize_result_idem

/-! ## The iterator emission loop -/

theorem streamLoop_take : ∀ (items : List PyVal) (m : Int) (c : Nat), (c : Int) < m →
    streamLoop (some m) items c = ((items.take (m - c).toNat).map normalize_result,
      if m - (c : Int) ≤ (items.length : Int) then (m - c).toNat else items.length + 1)
  | [], m, c, h => by
    simp only [streamLoop, List.take_nil, List.map_nil, List.length_nil]
    rw [if_neg (by omega)]
  | item :: rest, m, c, h => by
    by_cases hb : m ≤ ((c + 1 : Nat) : Int)
    · have hm : m - (c : Int) = 1 := by push_cast at hb ⊢; omega
      simp only [streamLoop]
      rw [if_pos hb, hm]
      rw [if_pos (by simp)]
      simp
    · have hrec := streamLoop_take rest m (c + 1) (by push_cast at hb ⊢; omega)
      simp only [streamLoop]
      rw [if_neg hb, hrec]
      have h1 : (m - (c : Int)).toNat = (m - ((c : Nat) + 1 : Nat)).toNat + 1 := by
        push_cast at hb ⊢; omega
      simp only [List.length_cons, Prod.mk.injEq]
      constructor
      · rw [h1, List.take_succ_cons, List.map_cons]
      · split_ifs with hc1 hc2 hc2 <;> push_cast at hb hc1 hc2 ⊢ <;> omega

/-- C6 counterexample: with `--max-items 0` and a one-item producer the loop
still emits one item, so "at most N items" fails at N = 0. -/
theorem C6_counterexample :
    streamLoop (some 0) [nItem 0] 0 = ([nItem 0], 1) ∧
    ¬((streamLoop (some 0) [nItem 0] 0).1.length ≤ 0) := by
  exact ⟨rfl, by decide⟩

/-- C6 (amended).  For a positive cap N the iterator emitter prints exactly
the first N produced items (all of them when fewer exist), normalized, in
production order, taking N production steps when N items exist (so the
(N+1)-st production step is never invoked); a cap of 0 or less still prints
the first item.  In the spec's example (three items, cap 2) exactly the two
first items are emitted in order and only two production steps happen. -/
theorem C6_streaming_amended (items : List PyVal) (m : Int) (h : 1 ≤ m) :
    (streamLoop (some m) items 0).1 = (items.take m.toNat).map normalize_result ∧
    (streamLoop (some m) items 0).2 =
      (if m ≤ (items.length : Int) then m.toNat else items.length + 1) ∧
    streamLoop (some 2) [nItem 0, nItem 1, nItem 2] 0 = ([nItem 0, nItem 1], 2) := by
  have hx := streamLoop_take items m 0 (by omega)
  rw [show ((0 : Nat) : Int) = 0 from rfl, Int.sub_zero] at hx
  rw [hx]
  exact ⟨rfl, rfl, rfl⟩

/-- C6 witness: the amended statement at the spec's concrete example. -/
theorem C6_witness :
    (streamLoop (some 2) [nItem 0, nItem 1, nItem 2] 0).1 =
      ([nItem 0, nItem 1, nItem 2].take (2 : Int).toNat).map normalize_result :=
  (C6_streaming_amended [nItem 0, nItem 1, nItem 2] 2 (by norm_num)).1

/-- C10.  When `--max-items` is 0 or negative, the loop prints the first item
before the cap test fires: exactly one item is emitted (in one production
step), and no cap can reduce the emitted count below one on a non-empty
iterator. -/
theorem C10_cap_nonpositive (v : PyVal) (rest : List PyVal) (m : Int) (h : m ≤ 0) :
    streamLoop (some m) (v :: rest) 0 = ([normalize_result v], 1) ∧
    (∀ m2 : Int, 1 ≤ (streamLoop (some m2) (v :: rest) 0).1.length) := by
  constructor
  · simp only [streamLoop]
    rw [if_pos (by push_cast; omega)]
  · intro m2
    by_cases h2 : m2 ≤ ((0 + 1 : Nat) : Int)
    · simp only [streamLoop]
      rw [if_pos h2]
      simp
    · simp only [streamLoop]
      rw [if_neg h2]
      simp

/-- C10 witness: cap -2 on a one-item iterator emits that item once. -/
theorem C10_witness : streamLoop (some (-2)) [PyVal.pnone] 0 = ([PyVal.pnone], 1) :=
  (C10_cap_nonpositive PyVal.pnone [] (-2) (by norm_num)).1

/-! ## The markdown post-processor -/

theorem string_data_append (a b : String) : (a ++ b).data = a.data ++ b.data := rfl

theorem isPrefixOf_append_self : ∀ l t : List Char, List.isPrefixOf l (l ++ t) = true
  | [], _ => by simp [List.isPrefixOf]
  | c :: l, t => by simp [List.isPrefixOf, isPrefixOf_append_self l t]

theorem joinHeadingBody_isPrefix (heading body : String) :
    List.isPrefixOf heading.data (joinHeadingBody heading body).data = true := by
  unfold joinHeadingBody
  split_ifs
  · have h0 := isPrefixOf_append_self heading.data []
    rwa [List.append_nil] at h0
  · rw [string_data_append, string_data_append, List.append_assoc]
    exact isPrefixOf_append_self _ _

/-- C7.  For a page-entity `text` call with the markdown flag and a string
result: when the render step yields no usable fragment the output is the
trimmed heading (derived from the title, underscores to spaces, trimmed)
joined to the trimmed original string with one blank line, the heading alone
when the body trims to nothing; for any render collaborator the output is a
string starting with that heading; and any entity/method pair other than
page-text and site-parse passes through unchanged regardless of the flag. -/
theorem C7_markdown_page_text (ctx : MdCtx) (argsTitle : String) (t : TargetAttrs) (s : String)
    (hno : extract_parse_html (ctx.siteParse s t.name) = Option.none ∨
      extract_parse_html (ctx.siteParse s t.name) = some "") :
    maybe_convert_markdown ctx true ("page") ("text") argsTitle t (.str s) =
      .str (joinHeadingBody
        (pyStrip ("# " ++ normalize_page_title (targetDisplayName t argsTitle)))
        (pyStrip s)) ∧
    (pyStrip s = "" → maybe_convert_markdown ctx true ("page") ("text") argsTitle t (.str s) =
      .str (pyStrip ("# " ++ normalize_page_title (targetDisplayName t argsTitle)))) ∧
    (∀ ctx2 : MdCtx, ∃ out,
      maybe_convert_markdown ctx2 true ("page") ("text") argsTitle t (.str s) = .str out ∧
      List.isPrefixOf
        (pyStrip ("# " ++ normalize_page_title (targetDisplayName t argsTitle))).data
        out.data = true) ∧
    (∀ (md : Bool) (cmd mth : String) (r : PyVal), ¬(cmd = "page" ∧ mth = "text") →
      ¬(cmd = "site" ∧ mth = "parse") →
      maybe_convert_markdown ctx md cmd mth argsTitle t r = r) := by
  have hmain : ∀ (c2 : MdCtx), (extract_parse_html (c2.siteParse s t.name) = Option.none ∨
      extract_parse_html (c2.siteParse s t.name) = some "") →
      maybe_convert_markdown c2 true ("page") ("text") argsTitle t (.str s) =
        .str (joinHeadingBody
          (pyStrip ("# " ++ normalize_page_title (targetDisplayName t argsTitle)))
          (pyStrip s)) := by
    intro c2 h2
    rcases h2 with h2 | h2 <;> simp [maybe_convert_markdown, asStr, h2]
  refine ⟨hmain ctx hno, ?_, ?_, ?_⟩
  · intro hempty
    rw [hmain ctx hno]
    simp [joinHeadingBody, hempty]
  · intro ctx2
    cases hp : extract_parse_html (ctx2.siteParse s t.name) with
    | none =>
      exact ⟨_, hmain ctx2 (Or.inl hp), joinHeadingBody_isPrefix _ _⟩
    | some h =>
      by_cases hh : h = ""
      · subst hh
        exact ⟨_, hmain ctx2 (Or.inr hp), joinHeadingBody_isPrefix _ _⟩
      · refine ⟨joinHeadingBody
            (pyStrip ("# " ++ normalize_page_title (targetDisplayName t argsTitle)))
            (pyStrip (html_to_markdown ctx2.h2m h)), ?_, joinHeadingBody_isPrefix _ _⟩
        simp [maybe_convert_markdown, asStr, hp, hh]
  · intro md cmd mth r h1 h2
    cases md with
    | false => simp [maybe_convert_markdown]
    | true => simp [maybe_convert_markdown, h1, h2]

/-- C7 witness: the fallback path at a concrete page title and body. -/
theorem C7_witness :
    maybe_convert_markdown plainCtx true ("page") ("text") ("Main_Page")
      ⟨some ("Main_Page"), Option.none⟩ (.str ("hello")) =
      .str (joinHeadingBody
        (pyStrip ("# " ++ normalize_page_title
          (targetDisplayName ⟨some ("Main_Page"), Option.none⟩ ("Main_Page"))))
        (pyStrip ("hello"))) :=
  (C7_markdown_page_text plainCtx ("Main_Page") ⟨some ("Main_Page"), Option.none⟩ ("hello")
    (Or.inl rfl)).1

/-! ## Validation order and the single dispatch -/

theorem preNetEvents_not_dispatch (a : RunArgs) :
    (Ev.net NetOp.dispatch) ∉ preNetEvents a := by
  unfold preNetEvents
  split_ifs <;> simp

theorem preNetEvents_siteConstruct (a : RunArgs) :
    (Ev.net NetOp.siteConstruct) ∈ preNetEvents a := by
  unfold preNetEvents
  split_ifs <;> simp

theorem preNetEvents_count (a : RunArgs) (op : NetOp) (h1 : ¬(op = NetOp.siteConstruct))
    (h2 : ¬(op = NetOp.login)) : (preNetEvents a).count (Ev.net op) = 0 := by
  rw [List.count_eq_zero]
  unfold preNetEvents
  split_ifs <;> simp [h1, h2]

theorem emitValueEvents_count_net (a : RunArgs) (v2 : PyVal) (op : NetOp) :
    (emitValueEvents a v2).count (Ev.net op) = 0 := by
  rw [List.count_eq_zero]
  intro hmem
  unfold emitValueEvents at hmem
  cases v2 <;> revert hmem <;> split_ifs <;> intro hmem <;>
    simp [List.mem_map] at hmem

theorem emitJson_map_count_net (l : List PyVal) (op : NetOp) :
    (l.map Ev.emitJson).count (Ev.net op) = 0 := by
  rw [List.count_eq_zero]
  intro hmem
  simp [List.mem_map] at hmem

theorem mdParseEvents_count (a : RunArgs) (v : PyVal) :
    (mdParseEvents a v).count (Ev.net NetOp.siteParse) =
      (if a.markdown ∧ a.command = "page" ∧ a.method = "text" ∧ (asStr v).isSome
       then 1 else 0) ∧
    (mdParseEvents a v).count (Ev.net NetOp.dispatch) = 0 := by
  unfold mdParseEvents
  split_ifs <;> simp

/-- C3 counterexample: an unknown method name (`site nope`, public set
`[ping]`) is reported only after the site-construction network step: the
trace already holds a network event when the usage error is produced, so the
unknown-method failure is not before any network call. -/
theorem C3_counterexample :
    runModel cexUpstream cexArgs =
      ([Ev.net NetOp.siteConstruct], .error (.unknownMethod ("site") ("nope"))) ∧
    ¬((runModel cexUpstream cexArgs).1.filter isNetEv = []) :=
  ⟨rfl, by decide⟩

/-- C3 (amended).  Host, credential-pairing and keyword-token validation
still precede all network activity (their failures leave an empty trace),
and dispatch never happens before a validation failure; but the method-name
check runs only after site construction (and login, when credentials are
set): an unknown method aborts before dispatch while site construction is
already in the trace. -/
theorem C3_validation_order (U : Upstream) (a : RunArgs)
    (h1 : optTruthy a.host = true)
    (h2 : optTruthy a.username = optTruthy a.password)
    (h3 : exceptOk (parse_keyword_args a.kw) = true)
    (h4 : ¬(a.method ∈ U.methods a.command)) :
    (runModel U a).2 = .error (.unknownMethod a.command a.method) ∧
    (Ev.net NetOp.dispatch) ∉ (runModel U a).1 ∧
    (Ev.net NetOp.siteConstruct) ∈ (runModel U a).1 ∧
    (∀ a2 : RunArgs, optTruthy a2.host = false →
      runModel U a2 = ([], .error .missingHost)) ∧
    (∀ a2 : RunArgs, optTruthy a2.host = true →
      ¬(optTruthy a2.username = optTruthy a2.password) →
      runModel U a2 = ([], .error .credentialMismatch)) ∧
    (∀ a2 : RunArgs, exceptOk (parse_keyword_args a2.kw) = false →
      (runModel U a2).1 = []) := by
  have hrun : runModel U a = (preNetEvents a, .error (.unknownMethod a.command a.method)) := by
    unfold runModel
    rw [if_neg (by simp [h1])]
    rw [if_neg (by simp [h2])]
    obtain ⟨kwargs, hk⟩ : ∃ kwargs, parse_keyword_args a.kw = .ok kwargs := by
      cases hkk : parse_keyword_args a.kw with
      | ok kwargs => exact ⟨kwargs, rfl⟩
      | error e => rw [hkk] at h3; simp [exceptOk] at h3
    rw [hk]
    simp only [if_pos h4]
  refine ⟨by rw [hrun], by rw [hrun]; exact preNetEvents_not_dispatch a,
    by rw [hrun]; exact preNetEvents_siteConstruct a, ?_, ?_, ?_⟩
  · intro a2 hh
    unfold runModel
    rw [if_pos hh]
  · intro a2 hh hcred
    unfold runModel
    rw [if_neg (by simp [hh])]
    rw [if_pos hcred]
  · intro a2 hkw
    unfold runModel
    by_cases hh : optTruthy a2.host = false
    · rw [if_pos hh]
    · rw [if_neg hh]
      by_cases hcred : optTruthy a2.username ≠ optTruthy a2.password
      · rw [if_pos hcred]
      · rw [if_neg hcred]
        cases hkk : parse_keyword_args a2.kw with
        | ok kwargs => rw [hkk] at hkw; simp [exceptOk] at hkw
        | error e => cases e <;> rfl

/-- C3 witness: the amended statement at the concrete unknown-method world. -/
theorem C3_witness :
    (runModel cexUpstream cexArgs).2 =
      .error (.unknownMethod cexArgs.command cexArgs.method) ∧
    (Ev.net NetOp.dispatch) ∉ (runModel cexUpstream cexArgs).1 ∧
    (Ev.net NetOp.siteConstruct) ∈ (runModel cexUpstream cexArgs).1 :=
  ⟨(C3_validation_order cexUpstream cexArgs rfl rfl rfl (by decide)).1,
    (C3_validation_order cexUpstream cexArgs rfl rfl rfl (by decide)).2.1,
    (C3_validation_order cexUpstream cexArgs rfl rfl rfl (by decide)).2.2.1⟩

/-- C9 counterexample: a markdown page-text invocation dispatches once but
then makes a second upstream library call (`site.parse`) during result
post-processing, so the invocation does not perform exactly one library
call. -/
theorem C9_counterexample :
    (runModel mdUpstream mdArgs).1.count (Ev.net NetOp.dispatch) = 1 ∧
    (runModel mdUpstream mdArgs).1.count (Ev.net NetOp.siteParse) = 1 ∧
    (runModel mdUpstream mdArgs).2 = .ok () := by
  exact ⟨by decide, by decide, rfl⟩

/-- C9 (amended).  The dispatcher performs the named-method call exactly once
when all validation passes and never otherwise (no retry, no batching), and
emission makes no upstream call; but post-processing is not upstream-free:
exactly when the markdown flag is set on a page `text` call returning a
string, one additional upstream call (`site.parse`) is made. -/
theorem C9_single_dispatch (U : Upstream) (a : RunArgs) :
    (runModel U a).1.count (Ev.net NetOp.dispatch) =
      (if dispatchReaches U a = true then 1 else 0) ∧
    (runModel U a).1.count (Ev.net NetOp.siteParse) =
      (if dispatchReaches U a = true ∧ a.markdown = true ∧ a.command = "page" ∧
          a.method = "text" ∧ resultIsStr U = true then 1 else 0) := by
  by_cases hh : optTruthy a.host = false
  · have hr : runModel U a = ([], .error .missingHost) := by
      unfold runModel; rw [if_pos hh]
    have hd : dispatchReaches U a = false := by simp [dispatchReaches, hh]
    rw [hr, hd]
    simp
  · have hh2 : optTruthy a.host = true := by revert hh; cases optTruthy a.host <;> simp
    by_cases hcred : optTruthy a.username = optTruthy a.password
    case neg =>
      have hr : runModel U a = ([], .error .credentialMismatch) := by
        unfold runModel; rw [if_neg (by simp [hh2]), if_pos hcred]
      have hd : dispatchReaches U a = false := by simp [dispatchReaches, hcred]
      rw [hr, hd]
      simp
    case pos =>
      cases hkk : parse_keyword_args a.kw with
      | error e =>
        have hd : dispatchReaches U a = false := by
          simp [dispatchReaches, hkk, exceptOk]
        have hr1 : (runModel U a).1 = [] := by
          unfold runModel
          rw [if_neg (by simp [hh2]), if_neg (by simp [hcred]), hkk]
          cases e <;> rfl
        rw [hr1, hd]
        simp
      | ok kwargs =>
        have hex : exceptOk (parse_keyword_args a.kw) = true := by rw [hkk]; rfl
        by_cases hm : a.method ∈ U.methods a.command
        case neg =>
          have hd : dispatchReaches U a = false := by simp [dispatchReaches, hm]
          have hr1 : (runModel U a).1 = preNetEvents a := by
            unfold runModel
            rw [if_neg (by simp [hh2]), if_neg (by simp [hcred]), hkk, if_pos hm]
          rw [hr1, hd,
            preNetEvents_count a NetOp.dispatch (by decide) (by decide),
            preNetEvents_count a NetOp.siteParse (by decide) (by decide)]
          simp
        case pos =>
          have hdt : dispatchReaches U a = true := by
            simp [dispatchReaches, hh2, hcred, hex, hm]
          cases hcall : U.callResult with
          | iter items =>
            have hr1 : (runModel U a).1 = preNetEvents a ++ [Ev.net .dispatch] ++
                (streamLoop a.maxItems items 0).1.map Ev.emitJson := by
              unfold runModel
              rw [if_neg (by simp [hh2]), if_neg (by simp [hcred]), hkk,
                if_neg (by simpa using hm), hcall]
            have hres : resultIsStr U = false := by simp [resultIsStr, hcall]
            rw [hr1, hdt, hres]
            simp [List.count_append,
              preNetEvents_count a NetOp.dispatch (by decide) (by decide),
              preNetEvents_count a NetOp.siteParse (by decide) (by decide),
              emitJson_map_count_net]
          | val v =>
            have hr1 : (runModel U a).1 = preNetEvents a ++ [Ev.net .dispatch] ++
                mdParseEvents a v ++ emitValueEvents a
                  (maybe_convert_markdown ⟨U.h2m, U.siteParse⟩ a.markdown a.command a.method
                    a.title ⟨U.targetName, U.targetTitle⟩ v) := by
              unfold runModel
              rw [if_neg (by simp [hh2]), if_neg (by simp [hcred]), hkk,
                if_neg (by simpa using hm), hcall]
            have hres : resultIsStr U = (asStr v).isSome := by simp [resultIsStr, hcall]
            rw [hr1, hdt, hres]
            constructor
            · simp [List.count_append,
                preNetEvents_count a NetOp.dispatch (by decide) (by decide),
                (mdParseEvents_count a v).2, emitValueEvents_count_net]
            · rw [List.count_append, List.count_append, List.count_append,
                preNetEvents_count a NetOp.siteParse (by decide) (by decide),
                (mdParseEvents_count a v).1, emitValueEvents_count_net]
              by_cases hmd : a.markdown = true
              · by_cases hpg : a.command = "page"
                · by_cases htx : a.method = "text"
                  · by_cases hstr : (asStr v).isSome = true
                    · simp [hmd, hpg, htx, hstr]
                    · simp [hmd, hpg, htx, hstr]
                  · simp [hmd, hpg, htx]
                · simp [hmd, hpg]
              · simp [hmd]
